import Mathlib

/-!
Verification development for the hnp-cli ticket importer (src/main.rs).

The program parses a text document of ticket blocks, resolves inline
markup tokens (hash-tags, mentions, estimates, urgency markers, sub-task
lines) against catalog snapshots, and produces ticket records.

Shallow embedding conventions:
- text is modelled as List Char; the regex word class (letters, digits,
  underscore) and whitespace are modelled over ASCII, which covers every
  input considered here;
- the i64 identifier type of the source is modelled as Int;
- f32 estimate arithmetic is modelled as exact rationals; all estimate
  values appearing in the claims are exactly representable in f32, so the
  two agree on them;
- Rust panics (expect calls) are modelled as Option.none.
-/

namespace HnpCli

/-- Identifier type of the source (type Id = i64). -/
abbrev Id := Int

/-- Word character class of the regex token class (letters, digits,
underscore), restricted to ASCII. -/
def isWordChar (c : Char) : Bool := c.isAlphanum || c == '_'

/-- Model of str::trim from the left. -/
def ltrim (s : List Char) : List Char := s.dropWhile Char.isWhitespace

/-- Model of str::trim from the right. -/
def rtrim (s : List Char) : List Char := (s.reverse.dropWhile Char.isWhitespace).reverse

/-- Model of str::trim: whitespace removed from both ends. -/
def trim (s : List Char) : List Char := rtrim (ltrim s)

lemma length_dropWhile_le (p : Char → Bool) (l : List Char) :
    (l.dropWhile p).length ≤ l.length := by
  induction l with
  | nil => simp
  | cons c cs ih =>
    by_cases h : p c
    · simp only [List.dropWhile_cons_of_pos h, List.length_cons]
      omega
    · simp [List.dropWhile_cons_of_neg h]

/-- Matches of a marker-char token regex (marker followed by one or more
word characters) in left-to-right, non-overlapping order, as produced by
Regex::find_iter for the hash-tag, mention and urgency matchers. Each
returned element is the full matched token including the marker. -/
def tokenFindAll (m : Char) : List Char → List (List Char)
  | [] => []
  | c :: cs =>
    if c == m && !(cs.takeWhile isWordChar).isEmpty then
      (c :: cs.takeWhile isWordChar) :: tokenFindAll m (cs.dropWhile isWordChar)
    else
      tokenFindAll m cs
termination_by l => l.length
decreasing_by
  · have := length_dropWhile_le isWordChar cs
    simp only [List.length_cons]
    omega
  · simp

/-- Replace-all-with-empty for a marker-char token regex, as produced by
Regex::replace_all with the empty replacement. -/
def tokenStrip (m : Char) : List Char → List Char
  | [] => []
  | c :: cs =>
    if c == m && !(cs.takeWhile isWordChar).isEmpty then
      tokenStrip m (cs.dropWhile isWordChar)
    else
      c :: tokenStrip m cs
termination_by l => l.length
decreasing_by
  · have := length_dropWhile_le isWordChar cs
    simp only [List.length_cons]
    omega
  · simp

/-- Maximal runs of non-whitespace characters, as produced by
str::split_whitespace. -/
def words (l : List Char) : List (List Char) :=
  match h : l.dropWhile Char.isWhitespace with
  | [] => []
  | c :: cs =>
    (c :: cs.takeWhile (fun x => !x.isWhitespace)) ::
      words (cs.dropWhile (fun x => !x.isWhitespace))
termination_by l.length
decreasing_by
  have h1 : (l.dropWhile Char.isWhitespace).length ≤ l.length :=
    length_dropWhile_le Char.isWhitespace l
  rw [h] at h1
  have h2 := length_dropWhile_le (fun x => !x.isWhitespace) cs
  simp only [List.length_cons] at h1
  omega

/-- Joining word lists with single spaces, as produced by slice join with
a one-space separator. -/
def joinWords : List (List Char) → List Char
  | [] => []
  | [w] => w
  | w :: v :: ws => w ++ ' ' :: joinWords (v :: ws)

/-- Whitespace normalization pass of the builder: trim, split on
whitespace, join with single spaces (source lines 473 to 477). -/
def normalizeWs (s : List Char) : List Char := joinWords (words (trim s))

/-- Named capture groups of the estimate regex: day, hour, minute and
second components, each optional. -/
structure EstCaptures where
  days : Option Nat
  hours : Option Nat
  minutes : Option Nat
  seconds : Option Nat
deriving DecidableEq

/-- Numeric value of a digit run, as parsed from the digits captured by
one estimate component group. -/
def natOfDigits (ds : List Char) : Nat := ds.foldl (fun n c => 10 * n + (c.toNat - 48)) 0

/-- One optional component group of the estimate regex: a nonempty digit
run immediately followed by the unit letter; consumed on success, left in
place otherwise. Greedy digit matching with backtracking reduces to
exactly this maximal-run test. -/
def parseComp (unit : Char) (l : List Char) : Option Nat × List Char :=
  let ds := l.takeWhile Char.isDigit
  if ds.isEmpty then (none, l)
  else
    match l.dropWhile Char.isDigit with
    | u :: rest => if u == unit then (some (natOfDigits ds), rest) else (none, l)
    | [] => (none, l)

/-- Body of one estimate match after the tilde: the four optional
component groups in day, hour, minute, second order, returning the
captures and the remainder of the text after the match. -/
def parseEstBody (l : List Char) : EstCaptures × List Char :=
  let p1 := parseComp 'd' l
  let p2 := parseComp 'h' p1.2
  let p3 := parseComp 'm' p2.2
  let p4 := parseComp 's' p3.2
  (⟨p1.1, p2.1, p3.1, p4.1⟩, p4.2)

/-- Hour value summed from the captured components exactly as
get_estimate accumulates it: days times eight, plus hours, plus minutes
over sixty, plus seconds over thirty-six hundred; absent groups
contribute nothing. -/
def hoursOf (c : EstCaptures) : ℚ :=
  (c.days.getD 0 : ℚ) * 8 + (c.hours.getD 0 : ℚ) +
    (c.minutes.getD 0 : ℚ) / 60 + (c.seconds.getD 0 : ℚ) / 3600

/-- Model of get_estimate (source lines 329 to 357): the captures of the
first (leftmost) estimate match are summed into hours; with no match the
estimate is zero. The leftmost match of the estimate regex always begins
at the first tilde. -/
def get_estimate : List Char → ℚ
  | [] => 0
  | c :: cs => if c == '~' then hoursOf (parseEstBody cs).1 else get_estimate cs

lemma parseComp_snd_length (u : Char) (l : List Char) :
    (parseComp u l).2.length ≤ l.length := by
  unfold parseComp
  by_cases hds : (l.takeWhile Char.isDigit).isEmpty
  · simp [hds]
  · simp only [hds, if_false, Bool.false_eq_true]
    cases hdrop : l.dropWhile Char.isDigit with
    | nil => simp
    | cons x xs =>
      by_cases hx : x == u
      · have h1 : (l.dropWhile Char.isDigit).length ≤ l.length :=
          length_dropWhile_le Char.isDigit l
        rw [hdrop] at h1
        simp only [List.length_cons] at h1
        simp only [hx, if_true]
        omega
      · simp [hx]

lemma parseEstBody_snd_length (l : List Char) :
    (parseEstBody l).2.length ≤ l.length := by
  unfold parseEstBody
  have h1 := parseComp_snd_length 'd' l
  have h2 := parseComp_snd_length 'h' (parseComp 'd' l).2
  have h3 := parseComp_snd_length 'm' (parseComp 'h' (parseComp 'd' l).2).2
  have h4 := parseComp_snd_length 's' (parseComp 'm' (parseComp 'h' (parseComp 'd' l).2).2).2
  simp only []
  omega

/-- Replace-all-with-empty for the estimate regex, as used in the title
cleanup pass. Every tilde begins a match, so each tilde and the component
groups after it are removed. -/
def estimateStrip : List Char → List Char
  | [] => []
  | c :: cs =>
    if c == '~' then estimateStrip (parseEstBody cs).2 else c :: estimateStrip cs
termination_by l => l.length
decreasing_by
  · have := parseEstBody_snd_length cs
    simp only [List.length_cons]
    omega
  · simp

/-- Tag classification of one hash-tag token (source enum Tag). -/
inductive Tag where
  | Category (id : Id) (name : List Char)
  | Tag (id : Id) (name : List Char)
  | UnaddedTag (raw : List Char)
deriving DecidableEq

/-- Lower-casing of a catalog name, modelling str::to_lowercase over
ASCII. -/
def toLowerStr (s : List Char) : List Char := s.map Char.toLower

/-- Sequence equality test at the start of a list. -/
def startsWithSeq : List Char → List Char → Bool
  | [], _ => true
  | _ :: _, [] => false
  | a :: as, b :: bs => a == b && startsWithSeq as bs

/-- Substring containment, modelling the use of str::matches count
being nonzero in the source. -/
def containsSeq (needle : List Char) : List Char → Bool
  | [] => startsWithSeq needle []
  | c :: cs => startsWithSeq needle (c :: cs) || containsSeq needle cs

/-- Model of match_tags_and_categories (source lines 285 to 310): each
hash-tag token of the title, with the hash sign removed and the token
trimmed, is looked up first among categories and then among tags by
comparing the raw token against the lower-cased catalog name; a token
matching neither is an UnaddedTag. -/
def match_tags_and_categories (title : List Char)
    (available_categories : List (Id × List Char))
    (available_tags : List (Id × List Char)) : List Tag :=
  (tokenFindAll '#' title).map (fun ht =>
    let hash_tag := trim (ht.filter (fun c => c != '#'))
    match available_categories.find? (fun e => toLowerStr e.2 == hash_tag) with
    | some e => Tag.Category e.1 e.2
    | none =>
      match available_tags.find? (fun e => toLowerStr e.2 == hash_tag) with
      | some e => Tag.Tag e.1 e.2
      | none => Tag.UnaddedTag hash_tag)

/-- Model of match_mentions (source lines 312 to 327): each mention token
of the string, with the at sign removed and the token trimmed, selects
the first user whose lower-cased display name contains the raw token; a
token contained in no display name panics, modelled as none. A user
catalog entry is an identifier, a display name and a handle. -/
def match_mentions (s : List Char)
    (available_users : List (Id × List Char × List Char)) :
    Option (List (Id × List Char × List Char)) :=
  (tokenFindAll '@' s).mapM (fun mt =>
    let user_name := trim (mt.filter (fun c => c != '@'))
    available_users.find? (fun u => containsSeq user_name (toLowerStr u.2.1)))

/-- Model of get_importance_level (source lines 359 to 377): the first
urgency token of the title, with the exclamation sign removed, selects
the first importance level whose lower-cased name contains the raw token
(panic, modelled none, when no level contains it); with no urgency token
the first level flagged as default is selected (panic, modelled none,
when no level is flagged default). -/
def get_importance_level (title : List Char)
    (available_importance_levels : List (Id × List Char × Bool)) : Option Id :=
  match (tokenFindAll '!' title).head? with
  | some ut =>
    let urgency := ut.filter (fun c => c != '!')
    (available_importance_levels.find?
      (fun lv => containsSeq urgency (toLowerStr lv.2.1))).map (fun lv => lv.1)
  | none =>
    (available_importance_levels.find? (fun lv => lv.2.2)).map (fun lv => lv.1)

/-- Model of the description mention rewriting (source lines 481 to 494):
replace-all over mention tokens, each replaced by an at sign followed by
the handle of the first user whose lower-cased display name contains the
raw token; an unresolvable token panics, modelled as none. -/
def rewriteMentions (available_users : List (Id × List Char × List Char)) :
    List Char → Option (List Char)
  | [] => some []
  | c :: cs =>
    if c == '@' && !(cs.takeWhile isWordChar).isEmpty then
      let mention := (c :: cs.takeWhile isWordChar).filter (fun x => x != '@')
      match available_users.find? (fun u => containsSeq mention (toLowerStr u.2.1)) with
      | some u =>
        (rewriteMentions available_users (cs.dropWhile isWordChar)).map
          (fun r => '@' :: (u.2.2 ++ r))
      | none => none
    else
      (rewriteMentions available_users cs).map (fun r => c :: r)
termination_by l => l.length
decreasing_by
  · have := length_dropWhile_le isWordChar cs
    simp only [List.length_cons]
    omega
  · simp

/-- Lines of a text, split at newline characters; the multi-line sub-task
regex anchors cover exactly these lines. -/
def splitLines : List Char → List (List Char)
  | [] => [[]]
  | c :: cs =>
    if c == '\n' then [] :: splitLines cs
    else
      match splitLines cs with
      | [] => [[c]]
      | ln :: rest => (c :: ln) :: rest

/-- Inverse of splitLines: join lines with newline characters. -/
def joinLines : List (List Char) → List Char
  | [] => []
  | [ln] => ln
  | ln :: l2 :: rest => ln ++ '\n' :: joinLines (l2 :: rest)

/-- Test for a sub-task line: the line begins with the two-character
open-close bracket pair, as in the sub-task regex anchored at line start.
The regex dot matches the remainder of the line, so a sub-task match is
the whole line. -/
def isSubtaskLine (ln : List Char) : Bool := startsWithSeq ("[]".toList) ln

/-- Replace-all of the two-character open-close bracket pair with the
empty string, as applied to each extracted sub-task line. -/
def stripBrackets : List Char → List Char
  | [] => []
  | '[' :: ']' :: rest => stripBrackets rest
  | c :: rest => c :: stripBrackets rest

/-- Sub-task texts extracted from a description (source lines 496 to
499): each sub-task line with bracket pairs removed and trimmed, in
document order. -/
def find_subtasks (description : List Char) : List (List Char) :=
  ((splitLines description).filter isSubtaskLine).map (fun ln => trim (stripBrackets ln))

/-- Description with sub-task lines removed and the result trimmed
(source lines 501 to 504). -/
def strip_subtasks (description : List Char) : List Char :=
  trim (joinLines ((splitLines description).map (fun ln =>
    if isSubtaskLine ln then [] else ln)))

lemma startsWithSeq_length {sep l : List Char} (h : startsWithSeq sep l = true) :
    sep.length ≤ l.length := by
  induction sep generalizing l with
  | nil => simp
  | cons a as ih =>
    cases l with
    | nil => simp [startsWithSeq] at h
    | cons b bs =>
      simp only [startsWithSeq, Bool.and_eq_true] at h
      have := ih h.2
      simp only [List.length_cons]
      omega

/-- First occurrence split: the text before the first occurrence of the
separator and the text after it, or none when the separator does not
occur. This is the semantics of taking the next chunk of str::split. -/
def splitFirstSeq (sep : List Char) : List Char → Option (List Char × List Char)
  | [] => if sep.isEmpty then some ([], []) else none
  | c :: cs =>
    if startsWithSeq sep (c :: cs) then some ([], (c :: cs).drop sep.length)
    else
      match splitFirstSeq sep cs with
      | some p => some (c :: p.1, p.2)
      | none => none

lemma splitFirstSeq_some_length {c0 : Char} {srest l : List Char}
    {p : List Char × List Char} (h : splitFirstSeq (c0 :: srest) l = some p) :
    p.2.length < l.length := by
  induction l generalizing p with
  | nil => simp [splitFirstSeq] at h
  | cons c cs ih =>
    by_cases hs : startsWithSeq (c0 :: srest) (c :: cs) = true
    · simp only [splitFirstSeq, hs, if_true, Option.some.injEq] at h
      have hlen := startsWithSeq_length hs
      subst h
      simp only [List.length_drop, List.length_cons] at *
      omega
    · simp only [splitFirstSeq, hs, if_false, Bool.false_eq_true] at h
      cases hrec : splitFirstSeq (c0 :: srest) cs with
      | none => rw [hrec] at h; simp at h
      | some q =>
        rw [hrec] at h
        simp only [Option.some.injEq] at h
        have := ih hrec
        subst h
        simp only [List.length_cons]
        omega

/-- Full split on a separator sequence, modelling str::split collected to
a vector. The separator is passed as head and rest so that it is
syntactically nonempty. -/
def splitOnSeq (sc : Char) (srest : List Char) (l : List Char) : List (List Char) :=
  match h : splitFirstSeq (sc :: srest) l with
  | none => [l]
  | some p => p.1 :: splitOnSeq sc srest p.2
termination_by l.length
decreasing_by
  exact splitFirstSeq_some_length h

/-- Chunks of one document block split on the three-equals delimiter
(source lines 416 and 449). -/
def chunksOf (text : List Char) : List (List Char) := splitOnSeq '=' ("==".toList) text

/-- Title region of a block: the trimmed text before the first
three-equals delimiter (source lines 417 and 450). -/
def titleOf (text : List Char) : List Char := trim ((chunksOf text).headD [])

/-- Description region of a block: the trimmed second chunk, or empty
when the block has no three-equals delimiter (source line 479). -/
def descOf (text : List Char) : List Char := trim ((chunksOf text).getD 1 [])

/-- Blocks of the whole document: split on the three-dashes delimiter,
keeping only blocks that are nonempty after trimming (source lines 400
to 403). -/
def blocksOf (contents : List Char) : List (List Char) :=
  (splitOnSeq '-' ("--".toList) contents).filter (fun t => 0 < (trim t).length)

/-- Title cleanup pass of the builder (source lines 467 to 477): strip
hash-tag tokens, then mention tokens, then estimate tokens, then urgency
tokens, then normalize whitespace. -/
def clean_title (title : List Char) : List Char :=
  normalizeWs (tokenStrip '!' (estimateStrip (tokenStrip '@' (tokenStrip '#' title))))

/-- Ticket record of the source (struct Ticket), with text as character
lists, identifiers as Int and the f32 cost as an exact rational. -/
structure Ticket where
  title : List Char
  description : List Char
  parent_id : Id
  is_story : Bool
  category_id : Id
  estimated_cost : ℚ
  importance_level_id : Id
  board_id : Id
  start_date : List Char
  due_date : List Char
  assigned_user_ids : List Id
  tag_ids : List Id
  sub_tasks : List (List Char)
  dependency_ids : List Id
deriving DecidableEq

/-- Construction of one ticket from one document block (source lines 448
to 533). The default-category option is pinned to None at source line
398, so no category suffix is appended to the title. Fields not derived
from text keep the Default values of the source struct. A panic anywhere
in construction is modelled as none. -/
def buildTicket (available_categories available_tags : List (Id × List Char))
    (available_users : List (Id × List Char × List Char))
    (available_importance_levels : List (Id × List Char × Bool))
    (text : List Char) : Option Ticket := do
  let title := titleOf text
  let categories_or_tags :=
    match_tags_and_categories title available_categories available_tags
  let mentions ← match_mentions title available_users
  let estimate := get_estimate title
  let importance_level ← get_importance_level title available_importance_levels
  let cleaned := clean_title title
  let description ← rewriteMentions available_users (descOf text)
  let subtasks := find_subtasks description
  let category_id ← categories_or_tags.findSome? (fun e =>
    match e with
    | Tag.Category i _ => some i
    | _ => none)
  pure {
    title := cleaned
    description := strip_subtasks description
    parent_id := 0
    is_story := false
    category_id := category_id
    estimated_cost := estimate
    importance_level_id := importance_level
    board_id := 0
    start_date := []
    due_date := []
    assigned_user_ids := mentions.map (fun u => u.1)
    tag_ids := categories_or_tags.filterMap (fun e =>
      match e with
      | Tag.Tag i _ => some i
      | _ => none)
    sub_tasks := subtasks
    dependency_ids := [] }

/-- Construction of the whole run over the block list: tickets are built
strictly in document order, and a panic in any construction aborts the
run, modelled as none for the whole list. -/
def buildTickets (available_categories available_tags : List (Id × List Char))
    (available_users : List (Id × List Char × List Char))
    (available_importance_levels : List (Id × List Char × Bool))
    (texts : List (List Char)) : Option (List Ticket) :=
  texts.mapM (buildTicket available_categories available_tags available_users
    available_importance_levels)

/-- Byte-lexicographic order on character lists, as used by Vec::sort on
strings over ASCII. -/
def lexLe : List Char → List Char → Bool
  | [], _ => true
  | _ :: _, [] => false
  | a :: as, b :: bs => if a == b then lexLe as bs else decide (a < b)

/-- Removal of consecutive duplicates, modelling Vec::dedup. -/
def dedupAdjacent : List (List Char) → List (List Char)
  | [] => []
  | [a] => [a]
  | a :: b :: rest =>
    if a == b then dedupAdjacent (b :: rest) else a :: dedupAdjacent (b :: rest)

/-- Unmatched raw tag names collected by the reconciliation pre-pass
(source lines 412 to 432): for each block, only the title region is
scanned; the UnaddedTag raw names are collected across all blocks, then
sorted and stripped of consecutive duplicates. Vec::sort is a stable
sort under the byte-lexicographic order; since that order is total and
antisymmetric on the collected names, its output coincides with any
correct sorting algorithm, here insertion sort. -/
def unmatched_tags_of (texts : List (List Char))
    (available_categories available_tags : List (Id × List Char)) :
    List (List Char) :=
  dedupAdjacent (List.insertionSort (fun a b => lexLe a b = true)
    ((texts.map (fun text =>
      (match_tags_and_categories (titleOf text) available_categories
        available_tags).filterMap (fun e =>
          match e with
          | Tag.UnaddedTag raw => some raw
          | _ => none))).flatten))

/-- Raw hash-tag tokens of a title, hash sign removed and trimmed, in
match order. -/
def hashTokens (title : List Char) : List (List Char) :=
  (tokenFindAll '#' title).map (fun ht => trim (ht.filter (fun c => c != '#')))

/-- Raw mention tokens of a text, at sign removed and trimmed, in match
order. -/
def mentionTokens (s : List Char) : List (List Char) :=
  (tokenFindAll '@' s).map (fun mt => trim (mt.filter (fun c => c != '@')))

/-- Raw urgency token of a title, if any: the first urgency match with
the exclamation sign removed. -/
def urgencyToken (title : List Char) : Option (List Char) :=
  ((tokenFindAll '!' title).head?).map (fun ut => ut.filter (fun c => c != '!'))

/-- Specification relation for hash-tag resolution, written from the
amended claim: a Category answer names a category entry whose
lower-cased name equals the raw token; a Tag answer names a tag entry
whose lower-cased name equals the raw token while no category entry
matches, so category strictly precedes tag; an UnaddedTag answer carries
the raw token and certifies that neither catalog matches it. -/
def ResolvesTo (cats tags : List (Id × List Char)) (tok : List Char) : Tag → Prop
  | Tag.Category i name => (i, name) ∈ cats ∧ toLowerStr name = tok
  | Tag.Tag i name => (i, name) ∈ tags ∧ toLowerStr name = tok ∧
      ∀ e ∈ cats, toLowerStr e.2 ≠ tok
  | Tag.UnaddedTag raw => raw = tok ∧ (∀ e ∈ cats, toLowerStr e.2 ≠ tok) ∧
      ∀ e ∈ tags, toLowerStr e.2 ≠ tok

/-- Specification relation for mention resolution: the selected user is
the first catalog entry, in iteration order, whose lower-cased display
name contains the raw token. -/
def FirstContaining (users : List (Id × List Char × List Char)) (tok : List Char)
    (u : Id × List Char × List Char) : Prop :=
  ∃ pre post, users = pre ++ u :: post ∧ containsSeq tok (toLowerStr u.2.1) = true ∧
    ∀ x ∈ pre, containsSeq tok (toLowerStr x.2.1) = false

/-- Absence of marker tokens: no position of the text holds the marker
character immediately followed by a word character. -/
def noTok (m : Char) : List Char → Bool
  | [] => true
  | [_] => true
  | c :: d :: rest => !(c == m && isWordChar d) && noTok m (d :: rest)

/-! Helper lemmas shared between the claim theorems. -/

lemma find?_map_eq_some_iff {α : Type} {β : Type} (p : α → Bool) (f : α → β)
    (l : List α) (b : β) :
    (l.find? p).map f = some b ↔
      ∃ pre e post, l = pre ++ e :: post ∧ p e = true ∧ b = f e ∧
        ∀ x ∈ pre, p x = false := by
  constructor
  · intro hb
    cases h : l.find? p with
    | none => rw [h] at hb; simp at hb
    | some a =>
      rw [h] at hb
      simp only [Option.map_some', Option.some.injEq] at hb
      rcases List.find?_eq_some.mp h with ⟨hpa, as, bs, heq, hpre⟩
      exact ⟨as, a, bs, heq, hpa, hb.symm,
        fun x hx => by simpa using hpre x hx⟩
  · rintro ⟨pre, e, post, rfl, hpe, rfl, hpre⟩
    have h : (pre ++ e :: post).find? p = some e :=
      List.find?_eq_some.mpr ⟨hpe, pre, post, rfl, fun a ha => by simp [hpre a ha]⟩
    rw [h, Option.map_some']

lemma find?_map_eq_none_iff {α : Type} {β : Type} (p : α → Bool) (f : α → β)
    (l : List α) :
    (l.find? p).map f = none ↔ ∀ x ∈ l, p x = false := by
  rw [Option.map_eq_none', List.find?_eq_none]
  simp

lemma mapM_option_nil {α : Type} {β : Type} (f : α → Option β) :
    ([] : List α).mapM f = some [] := rfl

lemma mapM_option_cons {α : Type} {β : Type} (f : α → Option β) (a : α) (as : List α) :
    (a :: as).mapM f = (f a).bind (fun b => (as.mapM f).bind (fun bs => some (b :: bs))) := by
  rw [List.mapM_cons]
  cases f a with
  | none => rfl
  | some b =>
    cases has : as.mapM f with
    | none => simp [has, Option.bind]
    | some bs => simp [has, Option.bind]

lemma mapM_option_eq_none {α : Type} {β : Type} (f : α → Option β) (l : List α) :
    l.mapM f = none ↔ ∃ x ∈ l, f x = none := by
  induction l with
  | nil => rw [mapM_option_nil]; simp
  | cons a as ih =>
    rw [mapM_option_cons]
    cases hfa : f a with
    | none => simp [hfa]
    | some b =>
      cases has : as.mapM f with
      | none =>
        simp only [Option.some_bind, Option.none_bind, true_iff]
        rcases ih.mp has with ⟨x, hx, hfx⟩
        exact ⟨x, List.mem_cons_of_mem a hx, hfx⟩
      | some bs =>
        simp only [Option.some_bind, Option.some_bind, reduceCtorEq, false_iff,
          not_exists, not_and]
        intro x hx
        rcases List.mem_cons.mp hx with rfl | hmem
        · simp [hfa]
        · intro hfx
          have h := ih.mpr ⟨x, hmem, hfx⟩
          rw [h] at has
          exact absurd has (by simp)

lemma mapM_option_eq_some_forall₂ {α : Type} {β : Type} (f : α → Option β) :
    ∀ (l : List α) (ys : List β), l.mapM f = some ys →
      List.Forall₂ (fun x y => f x = some y) l ys := by
  intro l
  induction l with
  | nil =>
    intro ys h
    rw [mapM_option_nil] at h
    injection h with h
    subst h
    exact List.Forall₂.nil
  | cons a as ih =>
    intro ys h
    rw [mapM_option_cons] at h
    cases hfa : f a with
    | none => rw [hfa] at h; simp at h
    | some b =>
      rw [hfa] at h
      cases has : as.mapM f with
      | none => rw [has] at h; simp at h
      | some bs =>
        rw [has] at h
        simp only [Option.some_bind, Option.some.injEq] at h
        subst h
        exact List.Forall₂.cons hfa (ih bs has)

/-! Resolution of hash-tags: claim C1. -/

/-- C1. The claim predicts that the raw token is lower-cased before it is
compared, so a title hash-tag with an upper-case letter would still
resolve against a lower-case category name. The code compares the raw
token unchanged against the lower-cased catalog name, so the token Foo
does not match the category named foo and is classified UnaddedTag. -/
theorem C1_counterexample :
    match_tags_and_categories ("#Foo".toList) [(1, ("foo".toList))] [] =
      [Tag.UnaddedTag ("Foo".toList)] ∧
    match_tags_and_categories ("#Foo".toList) [(1, ("foo".toList))] [] ≠
      [Tag.Category 1 ("foo".toList)] := by
  have h : match_tags_and_categories ("#Foo".toList) [(1, ("foo".toList))] [] =
      [Tag.UnaddedTag ("Foo".toList)] := by
    simp +decide [match_tags_and_categories, tokenFindAll, isWordChar, toLowerStr,
      trim, ltrim, rtrim, List.takeWhile, List.dropWhile]
  exact ⟨h, by rw [h]; decide⟩

/-- C1 amended. For every hash-tag token of a title, in match order:
the resolver trims the hash sign but keeps the case of the token, then
compares the raw token by equality against the lower-cased catalog
names, category catalog first (CategoryRef), else tag catalog (TagRef),
else UnresolvedTag; a category match always wins over a tag match. -/
theorem C1_resolution (title : List Char) (cats tags : List (Id × List Char)) :
    List.Forall₂ (fun tok t => ResolvesTo cats tags tok t) (hashTokens title)
      (match_tags_and_categories title cats tags) := by
  unfold hashTokens match_tags_and_categories
  rw [List.forall₂_map_left_iff, List.forall₂_map_right_iff, List.forall₂_same]
  intro ht _
  cases hc : cats.find? (fun e => toLowerStr e.2 == trim (ht.filter (fun c => c != '#'))) with
  | some e =>
    simp only [hc]
    have hpe := List.find?_some hc
    have hmem := List.mem_of_find?_eq_some hc
    simp only [beq_iff_eq] at hpe
    exact ⟨by simpa using hmem, hpe⟩
  | none =>
    simp only [hc]
    have hcats := List.find?_eq_none.mp hc
    cases htg : tags.find? (fun e => toLowerStr e.2 == trim (ht.filter (fun c => c != '#'))) with
    | some e =>
      simp only [htg]
      have hpe := List.find?_some htg
      have hmem := List.mem_of_find?_eq_some htg
      simp only [beq_iff_eq] at hpe
      refine ⟨by simpa using hmem, hpe, ?_⟩
      intro x hx
      have := hcats x hx
      simpa using this
    | none =>
      simp only [htg]
      have htags := List.find?_eq_none.mp htg
      refine ⟨rfl, ?_, ?_⟩
      · intro x hx
        have := hcats x hx
        simpa using this
      · intro x hx
        have := htags x hx
        simpa using this

/-! Resolution of the importance level: claim C9. -/

/-- C9. The claim predicts case-insensitive substring containment for
the urgency token, so the token High would match the level named High.
The code lower-cases only the catalog name and keeps the token case, so
the lookup fails and the construction is fatal instead of resolving the
level. -/
theorem C9_counterexample :
    get_importance_level ("fix !High".toList) [(1, ("High".toList), true)] = none ∧
    get_importance_level ("fix !High".toList) [(1, ("High".toList), true)] ≠ some 1 := by
  have h : get_importance_level ("fix !High".toList) [(1, ("High".toList), true)] = none := by
    simp +decide [get_importance_level, tokenFindAll, isWordChar, containsSeq,
      startsWithSeq, toLowerStr, List.takeWhile, List.dropWhile]
  exact ⟨h, by rw [h]; decide⟩

/-- C9 amended. When the title carries an urgency token (exclamation
sign plus word characters, exclamation sign removed, case preserved),
the importance level id is the first catalog entry whose lower-cased
name contains the raw token, and the lookup is fatal when no entry
contains it; when the title carries no urgency token the id is the
first entry flagged default, and it is a fatal configuration error when
no entry is flagged default. -/
theorem C9_importance (title : List Char) (levels : List (Id × List Char × Bool)) :
    (∀ tok, urgencyToken title = some tok →
      ((∀ i, get_importance_level title levels = some i ↔
        ∃ pre e post, levels = pre ++ e :: post ∧
          containsSeq tok (toLowerStr e.2.1) = true ∧ i = e.1 ∧
          ∀ x ∈ pre, containsSeq tok (toLowerStr x.2.1) = false) ∧
      (get_importance_level title levels = none ↔
        ∀ e ∈ levels, containsSeq tok (toLowerStr e.2.1) = false)))
  ∧ (urgencyToken title = none →
      ((∀ i, get_importance_level title levels = some i ↔
        ∃ pre e post, levels = pre ++ e :: post ∧ e.2.2 = true ∧ i = e.1 ∧
          ∀ x ∈ pre, x.2.2 = false) ∧
      (get_importance_level title levels = none ↔ ∀ e ∈ levels, e.2.2 = false))) := by
  constructor
  · intro tok htok
    rcases Option.map_eq_some'.mp htok with ⟨ut, hhead, hfilter⟩
    have hgl : get_importance_level title levels =
        (levels.find? (fun lv => containsSeq tok (toLowerStr lv.2.1))).map (fun lv => lv.1) := by
      unfold get_importance_level
      rw [hhead, ← hfilter]
    constructor
    · intro i
      rw [hgl, find?_map_eq_some_iff]
    · rw [hgl, find?_map_eq_none_iff]
  · intro htok
    have hhead : (tokenFindAll '!' title).head? = none := by
      unfold urgencyToken at htok
      exact Option.map_eq_none'.mp htok
    have hgl : get_importance_level title levels =
        (levels.find? (fun lv => lv.2.2)).map (fun lv => lv.1) := by
      unfold get_importance_level
      rw [hhead]
    constructor
    · intro i
      rw [hgl, find?_map_eq_some_iff]
    · rw [hgl, find?_map_eq_none_iff]

/-- C9 witness: a concrete urgency token resolves to the first
containing catalog entry, and a concrete default lookup succeeds, both
through the amended theorem. -/
theorem C9_witness :
    urgencyToken ("go !hig".toList) = some ("hig".toList) ∧
    get_importance_level ("go !hig".toList)
      [(2, ("low".toList), false), (5, ("high".toList), false)] = some 5 := by
  have hu : urgencyToken ("go !hig".toList) = some ("hig".toList) := by
    simp +decide [urgencyToken, tokenFindAll, isWordChar, List.takeWhile, List.dropWhile]
  refine ⟨hu, ?_⟩
  refine (((C9_importance ("go !hig".toList)
      [(2, ("low".toList), false), (5, ("high".toList), false)]).1
    ("hig".toList) hu).1 5).mpr ?_
  exact ⟨[(2, ("low".toList), false)], (5, ("high".toList), false), [], rfl,
    by decide, rfl, by decide⟩

/-! Order properties of the byte-lexicographic comparison, and the
behaviour of consecutive deduplication, used for claim C3. -/

lemma lexLe_total : ∀ a b : List Char, lexLe a b = true ∨ lexLe b a = true := by
  intro a
  induction a with
  | nil => intro b; left; simp [lexLe]
  | cons x xs ih =>
    intro b
    cases b with
    | nil => right; simp [lexLe]
    | cons y ys =>
      by_cases hxy : x = y
      · subst hxy
        simp only [lexLe, beq_self_eq_true, if_true]
        exact ih ys
      · have hxyb : (x == y) = false := by simp [hxy]
        have hyxb : (y == x) = false := by simp [Ne.symm hxy]
        simp only [lexLe, hxyb, hyxb, Bool.false_eq_true, if_false]
        rcases lt_trichotomy x y with h | h | h
        · left; exact decide_eq_true h
        · exact absurd h hxy
        · right; exact decide_eq_true h

lemma lexLe_trans : ∀ a b c : List Char,
    lexLe a b = true → lexLe b c = true → lexLe a c = true := by
  intro a
  induction a with
  | nil => intro b c _ _; simp [lexLe]
  | cons x xs ih =>
    intro b c hab hbc
    cases b with
    | nil => simp [lexLe] at hab
    | cons y ys =>
      cases c with
      | nil => simp [lexLe] at hbc
      | cons z zs =>
        by_cases hxy : x = y
        · subst hxy
          simp only [lexLe, beq_self_eq_true, if_true] at hab
          by_cases hyz : x = z
          · subst hyz
            simp only [lexLe, beq_self_eq_true, if_true] at hbc ⊢
            exact ih ys zs hab hbc
          · have hb : (x == z) = false := by simp [hyz]
            simp only [lexLe, hb, Bool.false_eq_true, if_false] at hbc ⊢
            exact hbc
        · have hxyb : (x == y) = false := by simp [hxy]
          simp only [lexLe, hxyb, Bool.false_eq_true, if_false] at hab
          have hlt1 : x < y := of_decide_eq_true hab
          by_cases hyz : y = z
          · subst hyz
            simp only [lexLe, hxyb, Bool.false_eq_true, if_false]
            exact hab
          · have hyzb : (y == z) = false := by simp [hyz]
            simp only [lexLe, hyzb, Bool.false_eq_true, if_false] at hbc
            have hlt2 : y < z := of_decide_eq_true hbc
            have hlt : x < z := lt_trans hlt1 hlt2
            have hb : (x == z) = false := by simp [ne_of_lt hlt]
            simp only [lexLe, hb, Bool.false_eq_true, if_false]
            exact decide_eq_true hlt

lemma lexLe_antisymm : ∀ a b : List Char,
    lexLe a b = true → lexLe b a = true → a = b := by
  intro a
  induction a with
  | nil =>
    intro b _ hba
    cases b with
    | nil => rfl
    | cons y ys => simp [lexLe] at hba
  | cons x xs ih =>
    intro b hab hba
    cases b with
    | nil => simp [lexLe] at hab
    | cons y ys =>
      by_cases hxy : x = y
      · subst hxy
        simp only [lexLe, beq_self_eq_true, if_true] at hab hba
        rw [ih ys hab hba]
      · have hxyb : (x == y) = false := by simp [hxy]
        have hyxb : (y == x) = false := by simp [Ne.symm hxy]
        simp only [lexLe, hxyb, hyxb, Bool.false_eq_true, if_false] at hab hba
        exact absurd (of_decide_eq_true hba) (lt_asymm (of_decide_eq_true hab))

lemma mem_dedupAdjacent : ∀ (l : List (List Char)) (x : List Char),
    x ∈ dedupAdjacent l ↔ x ∈ l := by
  intro l
  induction l with
  | nil => simp [dedupAdjacent]
  | cons a rest ih =>
    cases rest with
    | nil => simp [dedupAdjacent]
    | cons b rest2 =>
      intro x
      by_cases hab : (a == b) = true
      · have heq : a = b := by simpa using hab
        subst heq
        simp only [dedupAdjacent, hab, if_true]
        rw [ih x]
        simp [List.mem_cons]
      · simp only [dedupAdjacent, hab, Bool.false_eq_true, if_false]
        simp only [List.mem_cons]
        rw [← List.mem_cons]
        simp only [List.mem_cons] at *
        constructor
        · rintro (rfl | h)
          · left; rfl
          · right; exact ((ih x).mp (by simpa using h))
        · rintro (rfl | h)
          · left; rfl
          · right; simpa using (ih x).mpr h

lemma dedupAdjacent_sublist : ∀ l : List (List Char), List.Sublist (dedupAdjacent l) l := by
  intro l
  induction l with
  | nil => simp [dedupAdjacent]
  | cons a rest ih =>
    cases rest with
    | nil => simp [dedupAdjacent]
    | cons b rest2 =>
      by_cases hab : (a == b) = true
      · simp only [dedupAdjacent, hab, if_true]
        exact List.Sublist.cons a ih
      · simp only [dedupAdjacent, hab, Bool.false_eq_true, if_false]
        exact List.Sublist.cons₂ a ih

lemma nodup_dedupAdjacent : ∀ l : List (List Char),
    List.Pairwise (fun a b => lexLe a b = true) l → (dedupAdjacent l).Nodup := by
  intro l
  induction l with
  | nil => intro _; simp [dedupAdjacent]
  | cons a rest ih =>
    cases rest with
    | nil => intro _; simp [dedupAdjacent]
    | cons b rest2 =>
      intro hp
      have hp' : List.Pairwise (fun a b => lexLe a b = true) (b :: rest2) :=
        (List.pairwise_cons.mp hp).2
      by_cases hab : (a == b) = true
      · simp only [dedupAdjacent, hab, if_true]
        exact ih hp'
      · simp only [dedupAdjacent, hab, Bool.false_eq_true, if_false]
        refine List.nodup_cons.mpr ⟨?_, ih hp'⟩
        intro hmem
        have hmem' : a ∈ b :: rest2 := (mem_dedupAdjacent _ a).mp hmem
        have hane : a ≠ b := by
          intro e; rw [e] at hab; simp at hab
        rcases List.mem_cons.mp hmem' with rfl | hmem2
        · exact hane rfl
        · have h1 : lexLe a b = true := (List.pairwise_cons.mp hp).1 b (by simp)
          have h2 : lexLe b a = true := (List.pairwise_cons.mp hp').1 a hmem2
          exact hane (lexLe_antisymm a b h1 h2)

lemma unadded_proj_eq_some {e : Tag} {raw : List Char} :
    (match e with
      | Tag.UnaddedTag raw => some raw
      | _ => none) = some raw ↔ e = Tag.UnaddedTag raw := by
  cases e <;> simp

/-! Reconciliation pre-pass: claim C3. -/

/-- C3. The claim predicts the collected set for the titles of the
specification example to be exactly bar, baz, foo: lower-cased and
deduplicated regardless of case. The code keeps the original casing of
each unmatched token, sorts byte-lexicographically (upper case before
lower case) and removes only exact adjacent duplicates, so the collected
list is BAR, Foo, bar, baz. -/
theorem C3_counterexample :
    unmatched_tags_of [("#Foo #bar".toList), ("#BAR #baz".toList)] [] [] =
      [("BAR".toList), ("Foo".toList), ("bar".toList), ("baz".toList)] ∧
    unmatched_tags_of [("#Foo #bar".toList), ("#BAR #baz".toList)] [] [] ≠
      [("bar".toList), ("baz".toList), ("foo".toList)] := by
  have h : unmatched_tags_of [("#Foo #bar".toList), ("#BAR #baz".toList)] [] [] =
      [("BAR".toList), ("Foo".toList), ("bar".toList), ("baz".toList)] := by
    unfold unmatched_tags_of
    simp only [List.map_cons, List.map_nil]
    simp +decide [match_tags_and_categories, tokenFindAll, isWordChar,
      titleOf, chunksOf, splitOnSeq, splitFirstSeq, startsWithSeq, trim, ltrim, rtrim,
      toLowerStr, List.dropWhile, List.takeWhile, List.insertionSort, List.orderedInsert,
      lexLe, dedupAdjacent]
  exact ⟨h, by rw [h]; decide⟩

/-- C3 amended. The reconciliation pre-pass scans only the title region
of every block, collects the UnaddedTag raw names across all blocks with
their original casing, sorts them byte-lexicographically and removes
adjacent exact duplicates: the result is sorted, duplicate-free, and
holds exactly the raw names that some block title resolves to an
UnaddedTag. -/
theorem C3_reconciliation (texts : List (List Char))
    (cats tags : List (Id × List Char)) :
    List.Sorted (fun a b => lexLe a b = true) (unmatched_tags_of texts cats tags)
  ∧ (unmatched_tags_of texts cats tags).Nodup
  ∧ ∀ tok, tok ∈ unmatched_tags_of texts cats tags ↔
      ∃ text ∈ texts, Tag.UnaddedTag tok ∈
        match_tags_and_categories (titleOf text) cats tags := by
  letI : IsTotal (List Char) (fun a b => lexLe a b = true) := ⟨lexLe_total⟩
  letI : IsTrans (List Char) (fun a b => lexLe a b = true) := ⟨lexLe_trans⟩
  unfold unmatched_tags_of
  have hsorted := List.sorted_insertionSort (fun a b => lexLe a b = true)
    ((texts.map (fun text =>
      (match_tags_and_categories (titleOf text) cats tags).filterMap (fun e =>
        match e with
        | Tag.UnaddedTag raw => some raw
        | _ => none))).flatten)
  refine ⟨hsorted.sublist (dedupAdjacent_sublist _), nodup_dedupAdjacent _ hsorted, ?_⟩
  intro tok
  rw [mem_dedupAdjacent, List.mem_insertionSort, List.mem_flatten]
  constructor
  · rintro ⟨w, hw, htokw⟩
    rcases List.mem_map.mp hw with ⟨text, htext, rfl⟩
    rcases List.mem_filterMap.mp htokw with ⟨e, he, hproj⟩
    rw [unadded_proj_eq_some] at hproj
    subst hproj
    exact ⟨text, htext, he⟩
  · rintro ⟨text, htext, hmem⟩
    refine ⟨(match_tags_and_categories (titleOf text) cats tags).filterMap (fun e =>
      match e with
      | Tag.UnaddedTag raw => some raw
      | _ => none), List.mem_map.mpr ⟨text, htext, rfl⟩, ?_⟩
    exact List.mem_filterMap.mpr ⟨Tag.UnaddedTag tok, hmem, rfl⟩

/-! Resolution of mentions: claim C4. -/

/-- C4. The claim predicts that the raw mention token is lower-cased
before the containment test, so the token Bo would select the user named
Bob. The code keeps the token case and lower-cases only the display
name, so the token Bo is contained in no lower-cased name and resolution
is fatal. -/
theorem C4_counterexample :
    match_mentions ("hi @Bo".toList) [(3, ("Bob".toList), ("bob92".toList))] = none ∧
    match_mentions ("hi @Bo".toList) [(3, ("Bob".toList), ("bob92".toList))] ≠
      some [(3, ("Bob".toList), ("bob92".toList))] := by
  have h : match_mentions ("hi @Bo".toList) [(3, ("Bob".toList), ("bob92".toList))] =
      none := by
    simp +decide [match_mentions, tokenFindAll, isWordChar, containsSeq, startsWithSeq,
      toLowerStr, trim, ltrim, rtrim, List.takeWhile, List.dropWhile]
  exact ⟨h, by rw [h]; decide⟩

/-- C4 amended. For every mention token (trimmed of the at sign, case
preserved), resolution selects the first user in catalog iteration order
whose lower-cased display name contains the raw token; in descriptions
each mention is rewritten to an at sign followed by the stored handle of
that user, not the raw typed name; a token contained in no display name
is fatal for the run, not a per-ticket skip. -/
theorem C4_mentions :
    (∀ (s : List Char) (users : List (Id × List Char × List Char)) ms,
      match_mentions s users = some ms →
      List.Forall₂ (fun tok u => FirstContaining users tok u) (mentionTokens s) ms)
  ∧ (∀ (s : List Char) (users : List (Id × List Char × List Char)),
      match_mentions s users = none ↔
        ∃ tok ∈ mentionTokens s, ∀ u ∈ users,
          containsSeq tok (toLowerStr u.2.1) = false)
  ∧ rewriteMentions [(3, ("Bob".toList), ("bob92".toList))] ("ping @bo".toList) =
      some ("ping @bob92".toList)
  ∧ (∀ cats tags (users : List (Id × List Char × List Char)) levels
      (texts : List (List Char)) text, text ∈ texts →
      match_mentions (titleOf text) users = none →
      buildTickets cats tags users levels texts = none) := by
  refine ⟨?_, ?_, ?_, ?_⟩
  · intro s users ms hms
    unfold match_mentions at hms
    have h := mapM_option_eq_some_forall₂ _ _ _ hms
    unfold mentionTokens
    rw [List.forall₂_map_left_iff]
    refine h.imp ?_
    intro mt u hfind
    rcases List.find?_eq_some.mp hfind with ⟨hpu, pre, post, heq, hpre⟩
    exact ⟨pre, post, heq, hpu, fun x hx => by simpa using hpre x hx⟩
  · intro s users
    unfold match_mentions
    rw [mapM_option_eq_none]
    unfold mentionTokens
    constructor
    · rintro ⟨mt, hmt, hnone⟩
      refine ⟨trim (mt.filter (fun c => c != '@')), List.mem_map.mpr ⟨mt, hmt, rfl⟩, ?_⟩
      intro u hu
      have := List.find?_eq_none.mp hnone u hu
      simpa using this
    · rintro ⟨tok, htok, hall⟩
      rcases List.mem_map.mp htok with ⟨mt, hmt, rfl⟩
      refine ⟨mt, hmt, List.find?_eq_none.mpr ?_⟩
      intro u hu
      simpa using hall u hu
  · simp +decide [rewriteMentions, isWordChar, containsSeq, startsWithSeq, toLowerStr,
      List.takeWhile, List.dropWhile]
  · intro cats tags users levels texts text htext hnone
    unfold buildTickets
    rw [mapM_option_eq_none]
    refine ⟨text, htext, ?_⟩
    simp only [buildTicket, hnone, Option.bind_eq_bind, Option.none_bind]

/-- C4 witness: a concrete lower-case token resolves through the amended
theorem to the single catalog user, and a concrete unresolvable token
makes the whole run fail. -/
theorem C4_witness :
    match_mentions ("hi @bo".toList) [(3, ("Bob".toList), ("bob92".toList))] =
      some [(3, ("Bob".toList), ("bob92".toList))] ∧
    List.Forall₂ (fun tok u => FirstContaining [(3, ("Bob".toList), ("bob92".toList))] tok u)
      (mentionTokens ("hi @bo".toList)) [(3, ("Bob".toList), ("bob92".toList))] ∧
    buildTickets [] [] [] [] [("x @zz".toList)] = none := by
  have hm : match_mentions ("hi @bo".toList) [(3, ("Bob".toList), ("bob92".toList))] =
      some [(3, ("Bob".toList), ("bob92".toList))] := by
    simp +decide [match_mentions, tokenFindAll, isWordChar, containsSeq, startsWithSeq,
      toLowerStr, trim, ltrim, rtrim, List.takeWhile, List.dropWhile]
  have hz : match_mentions (titleOf ("x @zz".toList)) [] = none := by
    simp +decide [match_mentions, tokenFindAll, isWordChar, titleOf, chunksOf,
      splitOnSeq, splitFirstSeq, startsWithSeq, trim, ltrim, rtrim,
      List.takeWhile, List.dropWhile]
  exact ⟨hm, C4_mentions.1 _ _ _ hm,
    C4_mentions.2.2.2 [] [] [] [] [("x @zz".toList)] ("x @zz".toList) (by simp) hz⟩

/-! Estimate parsing: claims C5 and C10. -/

lemma get_estimate_append (u v : List Char) (hu : '~' ∉ u) :
    get_estimate (u ++ '~' :: v) = hoursOf (parseEstBody v).1 := by
  induction u with
  | nil => simp [get_estimate]
  | cons c cs ih =>
    have hc : (c == '~') = false := by
      have : c ≠ '~' := by
        intro e; subst e; exact hu (List.mem_cons_self '~' cs)
      simp [this]
    rw [List.cons_append]
    simp only [get_estimate, hc, Bool.false_eq_true, if_false]
    exact ih (fun hmem => hu (List.mem_cons_of_mem c hmem))

lemma get_estimate_no_tilde : ∀ t : List Char, '~' ∉ t → get_estimate t = 0 := by
  intro t
  induction t with
  | nil => intro _; rfl
  | cons c cs ih =>
    intro h
    have hc : (c == '~') = false := by
      have : c ≠ '~' := by
        intro e; subst e; exact h (List.mem_cons_self '~' cs)
      simp [this]
    simp only [get_estimate, hc, Bool.false_eq_true, if_false]
    exact ih (fun hmem => h (List.mem_cons_of_mem c hmem))

lemma parseComp_no_digit (unit : Char) (v : List Char)
    (hv : v.takeWhile Char.isDigit = []) : parseComp unit v = (none, v) := by
  unfold parseComp
  simp [hv]

/-- C5. Estimate conversion is additive with one day worth eight hours:
a complete estimate token of one day, two hours and thirty minutes
yields ten and a half hours wherever it sits in the title, forty-five
minutes yield three quarters of an hour, and a title with no tilde
yields zero. The hypotheses pin the token down as complete: no earlier
tilde starts the match and no digit directly follows the token. -/
theorem C5_estimate_parsing :
    (∀ u v : List Char, '~' ∉ u → v.takeWhile Char.isDigit = [] →
      get_estimate (u ++ ("~1d2h30m".toList) ++ v) = 21 / 2)
  ∧ (∀ u v : List Char, '~' ∉ u → v.takeWhile Char.isDigit = [] →
      get_estimate (u ++ ("~45m".toList) ++ v) = 3 / 4)
  ∧ (∀ t : List Char, '~' ∉ t → get_estimate t = 0) := by
  refine ⟨?_, ?_, get_estimate_no_tilde⟩
  · intro u v hu hv
    have hsplit : u ++ ("~1d2h30m".toList) ++ v = u ++ '~' :: (("1d2h30m".toList) ++ v) := by
      simp
    rw [hsplit, get_estimate_append u _ hu]
    have hbody : parseEstBody (("1d2h30m".toList) ++ v) =
        (⟨some 1, some 2, some 30, none⟩, v) := by
      unfold parseEstBody
      have h1 : parseComp 'd' (("1d2h30m".toList) ++ v) =
          (some 1, ("2h30m".toList) ++ v) := by
        unfold parseComp
        simp +decide [List.takeWhile, List.dropWhile, natOfDigits]
      have h2 : parseComp 'h' (("2h30m".toList) ++ v) =
          (some 2, ("30m".toList) ++ v) := by
        unfold parseComp
        simp +decide [List.takeWhile, List.dropWhile, natOfDigits]
      have h3 : parseComp 'm' (("30m".toList) ++ v) = (some 30, v) := by
        unfold parseComp
        simp +decide [List.takeWhile, List.dropWhile, natOfDigits]
      have hs := parseComp_no_digit 's' v hv
      simp only [h1, h2, h3, hs]
    rw [hbody]
    simp [hoursOf]
    norm_num
  · intro u v hu hv
    have hsplit : u ++ ("~45m".toList) ++ v = u ++ '~' :: (("45m".toList) ++ v) := by
      simp
    rw [hsplit, get_estimate_append u _ hu]
    have hbody : parseEstBody (("45m".toList) ++ v) =
        (⟨none, none, some 45, none⟩, v) := by
      unfold parseEstBody
      have hd : parseComp 'd' (("45m".toList) ++ v) = (none, ("45m".toList) ++ v) := by
        unfold parseComp
        simp +decide [List.takeWhile, List.dropWhile]
      have hh : parseComp 'h' (("45m".toList) ++ v) = (none, ("45m".toList) ++ v) := by
        unfold parseComp
        simp +decide [List.takeWhile, List.dropWhile]
      have hm : parseComp 'm' (("45m".toList) ++ v) = (some 45, v) := by
        unfold parseComp
        simp +decide [List.takeWhile, List.dropWhile, natOfDigits]
      have hs := parseComp_no_digit 's' v hv
      simp only [hd, hh, hm, hs]
    rw [hbody]
    simp [hoursOf]
    norm_num

/-- C5 witness: the three estimate shapes of the claim computed at
concrete titles through the theorem. -/
theorem C5_witness :
    get_estimate (("task ".toList) ++ ("~1d2h30m".toList) ++ (" rest".toList)) = 21 / 2 ∧
    get_estimate (("go ".toList) ++ ("~45m".toList) ++ ([] : List Char)) = 3 / 4 ∧
    get_estimate ("no estimate here".toList) = 0 :=
  ⟨C5_estimate_parsing.1 ("task ".toList) (" rest".toList) (by decide) (by decide),
   C5_estimate_parsing.2.1 ("go ".toList) [] (by decide) (by decide),
   C5_estimate_parsing.2.2 ("no estimate here".toList) (by decide)⟩

/-- C10. The estimate value is computed from the first tilde match only:
for every title whose prefix before the first tilde is tilde-free, the
value is the hour sum of the captures parsed directly after that first
tilde, so later estimate tokens never contribute; a bare tilde with no
component groups still matches and yields zero, as the concrete title
with a bare first tilde and a later three-hour token shows. -/
theorem C10_first_estimate :
    (∀ u v : List Char, '~' ∉ u →
      get_estimate (u ++ '~' :: v) = hoursOf (parseEstBody v).1)
  ∧ get_estimate ("~".toList) = 0
  ∧ get_estimate ("pre ~ mid ~3h tail".toList) = 0 := by
  refine ⟨fun u v hu => get_estimate_append u v hu, ?_, ?_⟩
  · simp [get_estimate, parseEstBody, parseComp, hoursOf]
  · simp +decide [get_estimate, parseEstBody, parseComp, hoursOf,
      List.takeWhile, List.dropWhile]

/-- C10 witness: the first-match rule applied through the theorem at a
concrete title carrying a second estimate token, together with the
evaluated result showing the second token did not contribute. -/
theorem C10_witness :
    get_estimate (("a ".toList) ++ '~' :: ("2h ~9d".toList)) =
      hoursOf (parseEstBody ("2h ~9d".toList)).1 ∧
    get_estimate ("a ~2h ~9d".toList) = 2 := by
  refine ⟨C10_first_estimate.1 ("a ".toList) ("2h ~9d".toList) (by decide), ?_⟩
  simp +decide [get_estimate, parseEstBody, parseComp, natOfDigits, hoursOf,
    List.takeWhile, List.dropWhile]

/-! Malformed blocks with a second title delimiter: claim C2. -/

set_option maxRecDepth 8000 in
/-- C2. The source marks the single-delimiter check as an unimplemented
FIXME at line 415: a block holding two title delimiters is not detected
and not rejected; the text between the first and second delimiter
becomes the description and the text after the second delimiter is
silently dropped, and construction succeeds. The claim and the spec
require an explicit fatal rejection here, so the code contradicts the
documented intent. -/
theorem C2_silent_truncation :
    (chunksOf ("Fix thing #bugs === desc one === dropped part".toList)).length = 3 ∧
    buildTicket [(1, ("bugs".toList))] [] [] [(7, ("Normal".toList), true)]
      ("Fix thing #bugs === desc one === dropped part".toList) =
      some { title := ("Fix thing".toList), description := ("desc one".toList),
             parent_id := 0, is_story := false, category_id := 1, estimated_cost := 0,
             importance_level_id := 7, board_id := 0, start_date := [], due_date := [],
             assigned_user_ids := [], tag_ids := [], sub_tasks := [],
             dependency_ids := [] } := by
  constructor
  · simp +decide [chunksOf, splitOnSeq, splitFirstSeq, startsWithSeq]
  · simp +decide [buildTicket, titleOf, descOf, chunksOf, splitOnSeq, splitFirstSeq,
      startsWithSeq, trim, ltrim, rtrim, match_tags_and_categories, tokenFindAll,
      isWordChar, toLowerStr, match_mentions, get_estimate, get_importance_level,
      clean_title, tokenStrip, estimateStrip, parseEstBody, parseComp, natOfDigits,
      hoursOf, normalizeWs, words, joinWords, rewriteMentions, containsSeq,
      find_subtasks, strip_subtasks, splitLines, joinLines, isSubtaskLine,
      stripBrackets, List.dropWhile, List.takeWhile]

/-! Category invariant of ticket construction: claim C8. -/

lemma category_proj_eq_some {e : Tag} {i : Id} :
    (match e with
      | Tag.Category j _ => some j
      | _ => none) = some i ↔ ∃ name, e = Tag.Category i name := by
  cases e <;> simp

lemma category_proj_eq_none {e : Tag} :
    (match e with
      | Tag.Category j _ => some j
      | _ => none) = none ↔ ∀ i name, e ≠ Tag.Category i name := by
  cases e <;> simp

/-- C8. Every constructed ticket carries exactly one category id, namely
the id of the first hash-tag of its title that resolved to a category,
with no earlier resolved category before it; and a block whose title
resolves zero categories makes its construction fail, which aborts the
whole run. -/
theorem C8_category_invariant :
    (∀ cats tags users levels text tk,
      buildTicket cats tags users levels text = some tk →
      ∃ pre e post name, match_tags_and_categories (titleOf text) cats tags =
          pre ++ e :: post ∧ e = Tag.Category tk.category_id name ∧
        ∀ x ∈ pre, ∀ i name2, x ≠ Tag.Category i name2)
  ∧ (∀ cats tags users levels (texts : List (List Char)) text,
      text ∈ texts →
      (∀ t ∈ match_tags_and_categories (titleOf text) cats tags,
        ∀ i name, t ≠ Tag.Category i name) →
      buildTickets cats tags users levels texts = none) := by
  have part1 : ∀ cats tags users levels text tk,
      buildTicket cats tags users levels text = some tk →
      ∃ pre e post name, match_tags_and_categories (titleOf text) cats tags =
          pre ++ e :: post ∧ e = Tag.Category tk.category_id name ∧
        ∀ x ∈ pre, ∀ i name2, x ≠ Tag.Category i name2 := by
    intro cats tags users levels text tk h
    simp only [buildTicket, Option.bind_eq_bind] at h
    rcases Option.bind_eq_some.mp h with ⟨mentions, hm, h⟩
    rcases Option.bind_eq_some.mp h with ⟨lvl, hl, h⟩
    rcases Option.bind_eq_some.mp h with ⟨desc, hd, h⟩
    rcases Option.bind_eq_some.mp h with ⟨cid, hc, h⟩
    have htk := Option.some.inj h
    have hcid : tk.category_id = cid := by rw [← htk]
    rcases List.findSome?_eq_some_iff.mp hc with ⟨pre, e, post, heq, hfe, hpre⟩
    rcases category_proj_eq_some.mp hfe with ⟨name, hename⟩
    refine ⟨pre, e, post, name, heq, by rw [hcid]; exact hename, ?_⟩
    intro x hx i name2
    exact (category_proj_eq_none.mp (hpre x hx)) i name2
  refine ⟨part1, ?_⟩
  intro cats tags users levels texts text htext hnocat
  unfold buildTickets
  rw [mapM_option_eq_none]
  refine ⟨text, htext, ?_⟩
  cases hb : buildTicket cats tags users levels text with
  | none => rfl
  | some tk =>
    exfalso
    rcases part1 cats tags users levels text tk hb with ⟨pre, e, post, name, heq, he, _⟩
    have hmem : e ∈ match_tags_and_categories (titleOf text) cats tags := by
      rw [heq]
      exact List.mem_append_right pre (List.mem_cons_self e post)
    exact hnocat e hmem tk.category_id name he

/-- C8 witness: a run over a single block whose title resolves zero
categories aborts, through the theorem. -/
theorem C8_witness :
    buildTickets [] [] [] [(7, ("n".toList), true)] [("hello".toList)] = none := by
  apply C8_category_invariant.2 [] [] [] [(7, ("n".toList), true)]
    [("hello".toList)] ("hello".toList) (by simp)
  intro t ht
  have hempty : match_tags_and_categories (titleOf ("hello".toList)) [] [] = [] := by
    simp +decide [match_tags_and_categories, tokenFindAll, isWordChar, titleOf, chunksOf,
      splitOnSeq, splitFirstSeq, startsWithSeq, trim, ltrim, rtrim,
      List.takeWhile, List.dropWhile]
  rw [hempty] at ht
  exact absurd ht (List.not_mem_nil t)

/-! Cleaned title of the builder: claim C6. -/

/-- C6. For every block whose construction succeeds, the ticket title is
the title region with hash-tag tokens, then mention tokens, then
estimate tokens, then urgency tokens removed, and the result
whitespace-normalized: runs of whitespace collapse to single spaces and
the ends are trimmed. -/
theorem C6_cleaned_title (cats tags : List (Id × List Char))
    (users : List (Id × List Char × List Char))
    (levels : List (Id × List Char × Bool)) (text : List Char) (tk : Ticket)
    (h : buildTicket cats tags users levels text = some tk) :
    tk.title = normalizeWs (tokenStrip '!' (estimateStrip (tokenStrip '@'
      (tokenStrip '#' (titleOf text))))) := by
  simp only [buildTicket, Option.bind_eq_bind] at h
  rcases Option.bind_eq_some.mp h with ⟨mentions, hm, h⟩
  rcases Option.bind_eq_some.mp h with ⟨lvl, hl, h⟩
  rcases Option.bind_eq_some.mp h with ⟨desc, hd, h⟩
  rcases Option.bind_eq_some.mp h with ⟨cid, hc, h⟩
  have htk := Option.some.inj h
  rw [← htk]
  rfl

set_option maxRecDepth 8000 in
/-- C6 witness: a concrete successful construction whose title equals
the stripped and normalized title region, through the theorem. -/
theorem C6_witness :
    buildTicket [(1, ("b".toList))] [] [] [(7, ("n".toList), true)]
      ("Go #b  now === d".toList) =
      some { title := ("Go now".toList), description := ("d".toList),
             parent_id := 0, is_story := false, category_id := 1, estimated_cost := 0,
             importance_level_id := 7, board_id := 0, start_date := [], due_date := [],
             assigned_user_ids := [], tag_ids := [], sub_tasks := [],
             dependency_ids := [] } ∧
    ("Go now".toList) = normalizeWs (tokenStrip '!' (estimateStrip (tokenStrip '@'
      (tokenStrip '#' (titleOf ("Go #b  now === d".toList)))))) := by
  have h : buildTicket [(1, ("b".toList))] [] [] [(7, ("n".toList), true)]
      ("Go #b  now === d".toList) =
      some { title := ("Go now".toList), description := ("d".toList),
             parent_id := 0, is_story := false, category_id := 1, estimated_cost := 0,
             importance_level_id := 7, board_id := 0, start_date := [], due_date := [],
             assigned_user_ids := [], tag_ids := [], sub_tasks := [],
             dependency_ids := [] } := by
    simp +decide [buildTicket, titleOf, descOf, chunksOf, splitOnSeq, splitFirstSeq,
      startsWithSeq, trim, ltrim, rtrim, match_tags_and_categories, tokenFindAll,
      isWordChar, toLowerStr, match_mentions, get_estimate, get_importance_level,
      clean_title, tokenStrip, estimateStrip, parseEstBody, parseComp, natOfDigits,
      hoursOf, normalizeWs, words, joinWords, rewriteMentions, containsSeq,
      find_subtasks, strip_subtasks, splitLines, joinLines, isSubtaskLine,
      stripBrackets, List.dropWhile, List.takeWhile]
  exact ⟨h, C6_cleaned_title _ _ _ _ _ _ h⟩

/-! Cleanup idempotence: claim C7. Identity of each strip pass on text
with no matching token, and invariants of the cleaned text. -/

lemma noTok_cons_cons {m c d : Char} {rest : List Char} :
    noTok m (c :: d :: rest) = true ↔
      (c == m && isWordChar d) = false ∧ noTok m (d :: rest) = true := by
  simp [noTok]
  tauto

lemma noTok_strip_id {m : Char} : ∀ l : List Char, noTok m l = true → tokenStrip m l = l := by
  intro l
  induction l with
  | nil => intro _; rw [tokenStrip]
  | cons c cs ih =>
    intro h
    have hcond : (c == m && !(cs.takeWhile isWordChar).isEmpty) = false := by
      cases cs with
      | nil => simp
      | cons d rest =>
        have hd := (noTok_cons_cons.mp h).1
        by_cases hcm : (c == m) = true
        · rw [hcm] at hd
          simp only [Bool.true_and] at hd
          simp [List.takeWhile_cons, hd, hcm]
        · have : (c == m) = false := by
            cases hb : (c == m) <;> simp_all
          simp [this]
    have htail : noTok m cs = true := by
      cases cs with
      | nil => rfl
      | cons d rest => exact (noTok_cons_cons.mp h).2
    rw [tokenStrip]
    simp only [hcond, Bool.false_eq_true, if_false]
    rw [ih htail]

lemma estimateStrip_id : ∀ l : List Char, '~' ∉ l → estimateStrip l = l := by
  intro l
  induction l with
  | nil => intro _; rw [estimateStrip]
  | cons c cs ih =>
    intro h
    have hc : (c == '~') = false := by
      have : c ≠ '~' := by
        intro e; subst e; exact h (List.mem_cons_self '~' cs)
      simp [this]
    rw [estimateStrip]
    simp only [hc, Bool.false_eq_true, if_false]
    rw [ih (fun hm => h (List.mem_cons_of_mem c hm))]

lemma estimateStrip_no_tilde : ∀ l : List Char, '~' ∉ estimateStrip l := by
  intro l
  induction l using estimateStrip.induct with
  | case1 => simp [estimateStrip]
  | case2 c cs hc ih =>
    rw [estimateStrip]
    simp only [hc, if_true]
    exact ih
  | case3 c cs hc ih =>
    rw [estimateStrip]
    simp only [hc, Bool.false_eq_true, if_false]
    intro hmem
    rcases List.mem_cons.mp hmem with he | hm
    · rw [he] at hc; simp at hc
    · exact ih hm

lemma tokenStrip_mem {m : Char} : ∀ (l : List Char) (x : Char),
    x ∈ tokenStrip m l → x ∈ l := by
  intro l
  induction l using tokenStrip.induct m with
  | case1 => intro x hx; rw [tokenStrip] at hx; exact absurd hx (List.not_mem_nil x)
  | case2 c cs hc ih =>
    intro x hx
    rw [tokenStrip] at hx
    simp only [hc, if_true] at hx
    exact List.mem_cons_of_mem c ((List.dropWhile_sublist _).subset (ih x hx))
  | case3 c cs hc ih =>
    intro x hx
    rw [tokenStrip] at hx
    simp only [hc, Bool.false_eq_true, if_false] at hx
    rcases List.mem_cons.mp hx with rfl | hm
    · exact List.mem_cons_self x cs
    · exact List.mem_cons_of_mem c (ih x hm)

lemma mem_ltrim {x : Char} {l : List Char} (h : x ∈ ltrim l) : x ∈ l :=
  (List.dropWhile_sublist _).subset h

lemma mem_rtrim {x : Char} {l : List Char} (h : x ∈ rtrim l) : x ∈ l := by
  unfold rtrim at h
  rw [List.mem_reverse] at h
  exact List.mem_reverse.mp ((List.dropWhile_sublist _).subset h)

lemma mem_trim {x : Char} {l : List Char} (h : x ∈ trim l) : x ∈ l :=
  mem_ltrim (mem_rtrim h)

lemma words_chars : ∀ (l : List Char) (w : List Char), w ∈ words l → ∀ x ∈ w, x ∈ l := by
  intro l
  induction l using words.induct with
  | case1 l h =>
    intro w hw
    rw [words] at hw
    rw [h] at hw
    exact absurd hw (List.not_mem_nil w)
  | case2 l c cs h ih =>
    intro w hw x hx
    rw [words] at hw
    rw [h] at hw
    have hcl : c ∈ l := (List.dropWhile_sublist _).subset (h ▸ List.mem_cons_self c cs)
    have hcs : ∀ y ∈ cs, y ∈ l := by
      intro y hy
      exact (List.dropWhile_sublist _).subset (h ▸ List.mem_cons_of_mem c hy)
    rcases List.mem_cons.mp hw with rfl | hrec
    · rcases List.mem_cons.mp hx with rfl | hxw
      · exact hcl
      · exact hcs x ((List.takeWhile_sublist _).subset hxw)
    · have := ih w hrec x hx
      exact hcs x ((List.dropWhile_sublist _).subset this)

lemma joinWords_chars : ∀ (ws : List (List Char)) (x : Char),
    x ∈ joinWords ws → x = ' ' ∨ ∃ w ∈ ws, x ∈ w := by
  intro ws
  induction ws with
  | nil => intro x hx; rw [joinWords] at hx; exact absurd hx (List.not_mem_nil x)
  | cons w rest ih =>
    cases rest with
    | nil =>
      intro x hx
      right
      exact ⟨w, by simp, by simpa [joinWords] using hx⟩
    | cons v rest2 =>
      intro x hx
      rw [joinWords] at hx
      rcases List.mem_append.mp hx with hw | hsep
      · right; exact ⟨w, by simp, hw⟩
      · rcases List.mem_cons.mp hsep with rfl | hrec
        · left; rfl
        · rcases ih x hrec with he | ⟨u, hu, hxu⟩
          · left; exact he
          · right; exact ⟨u, List.mem_cons_of_mem w hu, hxu⟩

lemma normalizeWs_chars (l : List Char) (x : Char) (h : x ∈ normalizeWs l) :
    x ∈ l ∨ x = ' ' := by
  unfold normalizeWs at h
  rcases joinWords_chars _ x h with he | ⟨w, hw, hx⟩
  · right; exact he
  · left; exact mem_trim (words_chars _ w hw x hx)

lemma clean_title_no_tilde (t : List Char) : '~' ∉ clean_title t := by
  intro hmem
  unfold clean_title at hmem
  rcases normalizeWs_chars _ _ hmem with h | h
  · exact estimateStrip_no_tilde _ (tokenStrip_mem _ _ h)
  · exact absurd h (by decide)

set_option maxRecDepth 4000 in
/-- C7. The cleanup pass is not idempotent: in the title with a hash
sign directly before a tilde and a word character, the estimate strip
removes the tilde and creates a fresh hash-tag token, which only a
second pass removes. -/
theorem C7_counterexample :
    clean_title (clean_title ("#~x".toList)) ≠ clean_title ("#~x".toList) ∧
    clean_title ("#~x".toList) = ("#x".toList) ∧
    clean_title (clean_title ("#~x".toList)) = ([] : List Char) := by
  have h1 : clean_title ("#~x".toList) = ("#x".toList) := by
    simp +decide [clean_title, tokenStrip, estimateStrip, parseEstBody, parseComp,
      isWordChar, normalizeWs, words, joinWords, trim, ltrim, rtrim,
      List.takeWhile, List.dropWhile]
  have h2 : clean_title ("#x".toList) = ([] : List Char) := by
    simp +decide [clean_title, tokenStrip, estimateStrip, parseEstBody, parseComp,
      isWordChar, normalizeWs, words, joinWords, trim, ltrim, rtrim,
      List.takeWhile, List.dropWhile]
  refine ⟨?_, h1, by rw [h1, h2]⟩
  rw [h1, h2]
  decide

/-! Claim C7 continued: the cleaned text never holds an urgency token,
because the urgency strip runs last among the strips and whitespace
normalization cannot create marker-word adjacencies. -/

lemma head_dropWhile_not_word (cs : List Char) :
    ∀ d, (cs.dropWhile isWordChar).head? = some d → isWordChar d = false := by
  intro d hd
  have h := List.head?_dropWhile_not isWordChar cs
  rw [hd] at h
  simpa using h

lemma tokenStrip_head_not_word {m : Char} :
    ∀ (cs : List Char), (∀ d, cs.head? = some d → isWordChar d = false) →
      ∀ d, (tokenStrip m cs).head? = some d → isWordChar d = false := by
  intro cs
  induction cs using tokenStrip.induct m with
  | case1 =>
    intro _ d hd
    rw [tokenStrip] at hd
    simp at hd
  | case2 c cs2 hc ih =>
    intro _ d hd
    rw [tokenStrip] at hd
    simp only [hc, if_true] at hd
    exact ih (fun e he => head_dropWhile_not_word cs2 e he) d hd
  | case3 c cs2 hc ih =>
    intro hhead d hd
    rw [tokenStrip] at hd
    simp only [hc, Bool.false_eq_true, if_false, List.head?_cons,
      Option.some.injEq] at hd
    subst hd
    exact hhead c rfl

lemma noTok_tokenStrip_self {m : Char} :
    ∀ l : List Char, noTok m (tokenStrip m l) = true := by
  intro l
  induction l using tokenStrip.induct m with
  | case1 => rw [tokenStrip]; rfl
  | case2 c cs hc ih =>
    rw [tokenStrip]
    simp only [hc, if_true]
    exact ih
  | case3 c cs hc ih =>
    rw [tokenStrip]
    simp only [hc, Bool.false_eq_true, if_false]
    cases hts : tokenStrip m cs with
    | nil => rfl
    | cons d rest =>
      refine noTok_cons_cons.mpr ⟨?_, by rw [← hts]; exact ih⟩
      by_cases hcm : (c == m) = true
      · have hheadcs : ∀ e, cs.head? = some e → isWordChar e = false := by
          intro e he
          cases cs with
          | nil => simp at he
          | cons e0 cs0 =>
            simp only [List.head?_cons, Option.some.injEq] at he
            subst he
            rw [hcm, Bool.true_and] at hc
            by_cases he0 : isWordChar e0 = true
            · rw [List.takeWhile_cons_of_pos he0] at hc
              simp at hc
            · cases hb : isWordChar e0
              · rfl
              · exact absurd hb he0
        have hdnw := tokenStrip_head_not_word cs hheadcs d (by rw [hts]; rfl)
        simp [hdnw]
      · have : (c == m) = false := by
          cases hb : (c == m)
          · rfl
          · exact absurd hb hcm
        simp [this]

lemma noTok_suffix {m : Char} : ∀ (a b : List Char),
    noTok m (a ++ b) = true → noTok m b = true := by
  intro a
  induction a with
  | nil => intro b h; exact h
  | cons c a' ih =>
    intro b h
    apply ih
    have h' : noTok m (c :: (a' ++ b)) = true := by simpa using h
    cases ha : a' ++ b with
    | nil => rfl
    | cons d rest =>
      rw [ha] at h'
      exact (noTok_cons_cons.mp h').2

lemma noTok_prefix {m : Char} : ∀ (a b : List Char),
    noTok m (a ++ b) = true → noTok m a = true := by
  intro a
  induction a with
  | nil => intro _ _; rfl
  | cons c a' ih =>
    intro b h
    have h' : noTok m (c :: (a' ++ b)) = true := by simpa using h
    cases ha' : a' with
    | nil => rfl
    | cons d rest =>
      subst ha'
      have hcc : noTok m (c :: d :: (rest ++ b)) = true := by simpa using h'
      refine noTok_cons_cons.mpr ⟨(noTok_cons_cons.mp hcc).1, ?_⟩
      exact ih b (by simpa using (noTok_cons_cons.mp hcc).2)

lemma noTok_within {m : Char} {l w : List Char} (h : noTok m l = true)
    (hinf : ∃ a b, l = a ++ (w ++ b)) : noTok m w = true := by
  rcases hinf with ⟨a, b, rfl⟩
  exact noTok_prefix w b (noTok_suffix a _ h)

lemma noTok_append_sep {m : Char} : ∀ (a b : List Char),
    noTok m a = true → noTok m (' ' :: b) = true →
      noTok m (a ++ ' ' :: b) = true := by
  intro a
  induction a with
  | nil => intro b _ h2; exact h2
  | cons c a' ih =>
    intro b h1 h2
    cases ha' : a' with
    | nil =>
      refine noTok_cons_cons.mpr ⟨?_, h2⟩
      have : isWordChar ' ' = false := by decide
      simp [this]
    | cons d rest =>
      subst ha'
      have hcc := noTok_cons_cons.mp h1
      have : (c :: (d :: rest)) ++ ' ' :: b = c :: ((d :: rest) ++ ' ' :: b) := rfl
      rw [this]
      refine noTok_cons_cons.mpr ⟨hcc.1, ?_⟩
      exact ih b hcc.2 h2

lemma noTok_joinWords {m : Char} (hm : (' ' == m) = false) :
    ∀ ws : List (List Char), (∀ w ∈ ws, noTok m w = true) →
      noTok m (joinWords ws) = true := by
  intro ws
  induction ws with
  | nil => intro _; rfl
  | cons w rest ih =>
    cases rest with
    | nil =>
      intro h
      have : joinWords [w] = w := by rw [joinWords]
      rw [this]
      exact h w (by simp)
    | cons v rest2 =>
      intro h
      rw [joinWords]
      apply noTok_append_sep
      · exact h w (by simp)
      · have hrec := ih (fun u hu => h u (List.mem_cons_of_mem w hu))
        cases hj : joinWords (v :: rest2) with
        | nil => rfl
        | cons d rest3 =>
          refine noTok_cons_cons.mpr ⟨by simp [hm], by rw [← hj]; exact hrec⟩

lemma ltrim_decomp (l : List Char) : ∃ a, l = a ++ ltrim l :=
  ⟨l.takeWhile Char.isWhitespace, (List.takeWhile_append_dropWhile _ _).symm⟩

lemma rtrim_decomp (l : List Char) : ∃ b, l = rtrim l ++ b := by
  refine ⟨(l.reverse.takeWhile Char.isWhitespace).reverse, ?_⟩
  unfold rtrim
  rw [← List.reverse_append]
  conv_lhs => rw [← List.reverse_reverse l]
  rw [List.takeWhile_append_dropWhile]

lemma trim_decomp (l : List Char) : ∃ a b, l = a ++ (trim l ++ b) := by
  rcases ltrim_decomp l with ⟨a, ha⟩
  rcases rtrim_decomp (ltrim l) with ⟨b, hb⟩
  refine ⟨a, b, ?_⟩
  conv_lhs => rw [ha, hb]
  rfl

lemma words_eq_nil (l : List Char) (h : l.dropWhile Char.isWhitespace = []) :
    words l = [] := by
  rw [words]
  split
  · rfl
  · rename_i c cs heq
    rw [h] at heq
    exact absurd heq.symm (List.cons_ne_nil c cs)

lemma words_eq (l : List Char) (c : Char) (cs : List Char)
    (h : l.dropWhile Char.isWhitespace = c :: cs) :
    words l = (c :: cs.takeWhile (fun x => !x.isWhitespace)) ::
      words (cs.dropWhile (fun x => !x.isWhitespace)) := by
  rw [words]
  split
  · rename_i heq
    rw [h] at heq
    exact absurd heq (List.cons_ne_nil c cs)
  · rename_i c2 cs2 heq
    rw [h] at heq
    injection heq with h1 h2
    subst h1
    subst h2
    rfl

lemma words_decomp : ∀ (l : List Char) (w : List Char), w ∈ words l →
    ∃ a b, l = a ++ (w ++ b) := by
  intro l
  induction l using words.induct with
  | case1 l h =>
    intro w hw
    rw [words_eq_nil l h] at hw
    exact absurd hw (List.not_mem_nil w)
  | case2 l c cs h ih =>
    intro w hw
    rw [words_eq l c cs h] at hw
    have hl : l = l.takeWhile Char.isWhitespace ++ (c :: cs) := by
      conv_lhs => rw [← List.takeWhile_append_dropWhile Char.isWhitespace l]
      rw [h]
    have hcs : cs = cs.takeWhile (fun x => !x.isWhitespace) ++
        cs.dropWhile (fun x => !x.isWhitespace) :=
      (List.takeWhile_append_dropWhile _ _).symm
    rcases List.mem_cons.mp hw with rfl | hrec
    · refine ⟨l.takeWhile Char.isWhitespace, cs.dropWhile (fun x => !x.isWhitespace), ?_⟩
      calc l = l.takeWhile Char.isWhitespace ++ (c :: cs) := hl
        _ = l.takeWhile Char.isWhitespace ++
            ((c :: cs.takeWhile (fun x => !x.isWhitespace)) ++
              cs.dropWhile (fun x => !x.isWhitespace)) := by
          rw [List.cons_append, ← hcs]
    · rcases ih w hrec with ⟨a, b, hab⟩
      refine ⟨(l.takeWhile Char.isWhitespace ++
        (c :: cs.takeWhile (fun x => !x.isWhitespace))) ++ a, b, ?_⟩
      calc l = l.takeWhile Char.isWhitespace ++ (c :: cs) := hl
        _ = l.takeWhile Char.isWhitespace ++
            (c :: (cs.takeWhile (fun x => !x.isWhitespace) ++
              cs.dropWhile (fun x => !x.isWhitespace))) := by rw [← hcs]
        _ = l.takeWhile Char.isWhitespace ++
            (c :: (cs.takeWhile (fun x => !x.isWhitespace) ++ (a ++ (w ++ b)))) := by
          rw [hab]
        _ = ((l.takeWhile Char.isWhitespace ++
            (c :: cs.takeWhile (fun x => !x.isWhitespace))) ++ a) ++ (w ++ b) := by
          simp [List.append_assoc]

lemma noTok_normalizeWs {m : Char} (hm : (' ' == m) = false) (l : List Char)
    (h : noTok m l = true) : noTok m (normalizeWs l) = true := by
  unfold normalizeWs
  apply noTok_joinWords hm
  intro w hw
  have h1 : noTok m (trim l) = true := noTok_within h (trim_decomp l)
  exact noTok_within h1 (words_decomp (trim l) w hw)

lemma clean_title_noTok_bang (t : List Char) : noTok '!' (clean_title t) = true := by
  unfold clean_title
  exact noTok_normalizeWs (by decide) _ (noTok_tokenStrip_self _)

/-! Claim C7 concluded: whitespace normalization is idempotent, and the
cleanup pass is idempotent on titles whose cleaned form carries no
hash-tag or mention token. -/

lemma words_props : ∀ (l : List Char) (w : List Char), w ∈ words l →
    w ≠ [] ∧ ∀ x ∈ w, x.isWhitespace = false := by
  intro l
  induction l using words.induct with
  | case1 l h =>
    intro w hw
    rw [words_eq_nil l h] at hw
    exact absurd hw (List.not_mem_nil w)
  | case2 l c cs h ih =>
    intro w hw
    rw [words_eq l c cs h] at hw
    rcases List.mem_cons.mp hw with rfl | hrec
    · refine ⟨List.cons_ne_nil c _, ?_⟩
      intro x hx
      rcases List.mem_cons.mp hx with rfl | hxw
      · have hh := List.head?_dropWhile_not Char.isWhitespace l
        rw [h] at hh
        simpa using hh
      · have := List.mem_takeWhile_imp hxw
        simpa using this
    · exact ih w hrec

lemma run_split (u : List Char) (r : List Char)
    (hu : ∀ x ∈ u, x.isWhitespace = false) :
    (u ++ ' ' :: r).takeWhile (fun x => !x.isWhitespace) = u ∧
    (u ++ ' ' :: r).dropWhile (fun x => !x.isWhitespace) = ' ' :: r := by
  induction u with
  | nil =>
    constructor
    · rw [List.nil_append, List.takeWhile_cons_of_neg (by simp)]
    · rw [List.nil_append, List.dropWhile_cons_of_neg (by simp)]
  | cons a u' ih =>
    have ha : a.isWhitespace = false := hu a (by simp)
    have ih' := ih (fun x hx => hu x (List.mem_cons_of_mem a hx))
    constructor
    · rw [List.cons_append, List.takeWhile_cons_of_pos (by simp [ha]), ih'.1]
    · rw [List.cons_append, List.dropWhile_cons_of_pos (by simp [ha]), ih'.2]

lemma run_all (u : List Char) (hu : ∀ x ∈ u, x.isWhitespace = false) :
    u.takeWhile (fun x => !x.isWhitespace) = u ∧
    u.dropWhile (fun x => !x.isWhitespace) = [] := by
  induction u with
  | nil => constructor <;> rfl
  | cons a u' ih =>
    have ha : a.isWhitespace = false := hu a (by simp)
    have ih' := ih (fun x hx => hu x (List.mem_cons_of_mem a hx))
    constructor
    · rw [List.takeWhile_cons_of_pos (by simp [ha]), ih'.1]
    · rw [List.dropWhile_cons_of_pos (by simp [ha]), ih'.2]

lemma words_cons_ws (c : Char) (hc : c.isWhitespace = true) (x : List Char) :
    words (c :: x) = words x := by
  have hdw : (c :: x).dropWhile Char.isWhitespace = x.dropWhile Char.isWhitespace :=
    List.dropWhile_cons_of_pos hc
  cases hx : x.dropWhile Char.isWhitespace with
  | nil => rw [words_eq_nil _ (hdw.trans hx), words_eq_nil _ hx]
  | cons d ds => rw [words_eq _ d ds (hdw.trans hx), words_eq _ d ds hx]

lemma words_joinWords : ∀ ws : List (List Char),
    (∀ w ∈ ws, w ≠ [] ∧ ∀ x ∈ w, x.isWhitespace = false) →
    words (joinWords ws) = ws := by
  intro ws
  induction ws with
  | nil =>
    intro _
    rw [joinWords]
    exact words_eq_nil [] rfl
  | cons w rest ih =>
    intro h
    rcases h w (by simp) with ⟨hne, hnw⟩
    cases hw0 : w with
    | nil => exact absurd hw0 hne
    | cons c w' =>
      subst hw0
      have hnwc : Char.isWhitespace c = false := hnw c (by simp)
      have hnw' : ∀ x ∈ w', x.isWhitespace = false :=
        fun x hx => hnw x (List.mem_cons_of_mem c hx)
      cases rest with
      | nil =>
        rw [show joinWords [c :: w'] = c :: w' from by rw [joinWords]]
        have hdw : (c :: w').dropWhile Char.isWhitespace = c :: w' :=
          List.dropWhile_cons_of_neg (by simp [hnwc])
        rw [words_eq _ c w' hdw]
        rcases run_all w' hnw' with ⟨ht, hd⟩
        rw [ht, hd, words_eq_nil [] rfl]
      | cons v rest2 =>
        rw [joinWords]
        have hshape : (c :: w') ++ ' ' :: joinWords (v :: rest2) =
            c :: (w' ++ ' ' :: joinWords (v :: rest2)) := rfl
        rw [hshape]
        have hdw : (c :: (w' ++ ' ' :: joinWords (v :: rest2))).dropWhile
            Char.isWhitespace = c :: (w' ++ ' ' :: joinWords (v :: rest2)) :=
          List.dropWhile_cons_of_neg (by simp [hnwc])
        rw [words_eq _ c _ hdw]
        rcases run_split w' (joinWords (v :: rest2)) hnw' with ⟨ht, hd⟩
        rw [ht, hd, words_cons_ws ' ' (by decide) _]
        rw [ih (fun u hu => h u (List.mem_cons_of_mem _ hu))]

lemma joinWords_cons_head (c : Char) (w' : List Char) (rest : List (List Char)) :
    ∃ t, joinWords ((c :: w') :: rest) = c :: t := by
  cases rest with
  | nil => exact ⟨w', by rw [joinWords]⟩
  | cons v rest2 =>
    exact ⟨w' ++ ' ' :: joinWords (v :: rest2), by rw [joinWords, List.cons_append]⟩

lemma joinWords_last : ∀ ws : List (List Char),
    (∀ w ∈ ws, w ≠ [] ∧ ∀ x ∈ w, x.isWhitespace = false) → ws ≠ [] →
    ∃ (d : Char) (t : List Char), (joinWords ws).reverse = d :: t ∧
      d.isWhitespace = false := by
  intro ws
  induction ws with
  | nil => intro _ hne; exact absurd rfl hne
  | cons w rest ih =>
    intro h _
    rcases h w (by simp) with ⟨hne, hnw⟩
    cases rest with
    | nil =>
      rw [show joinWords [w] = w from by rw [joinWords]]
      cases hrev : w.reverse with
      | nil => exact absurd (List.reverse_eq_nil_iff.mp hrev) hne
      | cons d t =>
        refine ⟨d, t, rfl, ?_⟩
        have hd : d ∈ w := by
          rw [← List.mem_reverse, hrev]
          exact List.mem_cons_self d t
        exact hnw d hd
    | cons v rest2 =>
      rw [joinWords]
      rcases ih (fun u hu => h u (List.mem_cons_of_mem _ hu))
        (List.cons_ne_nil v rest2) with ⟨d, t, hrev, hd⟩
      refine ⟨d, t ++ ' ' :: w.reverse, ?_, hd⟩
      rw [List.reverse_append, List.reverse_cons, List.append_assoc, hrev]
      rfl

lemma ltrim_joinWords (ws : List (List Char))
    (h : ∀ w ∈ ws, w ≠ [] ∧ ∀ x ∈ w, x.isWhitespace = false) :
    ltrim (joinWords ws) = joinWords ws := by
  cases ws with
  | nil => rfl
  | cons w rest =>
    rcases h w (by simp) with ⟨hne, hnw⟩
    cases hw0 : w with
    | nil => exact absurd hw0 hne
    | cons c w' =>
      subst hw0
      rcases joinWords_cons_head c w' rest with ⟨t, hjoin⟩
      unfold ltrim
      rw [hjoin]
      exact List.dropWhile_cons_of_neg (by simp [hnw c (by simp)])

lemma rtrim_joinWords (ws : List (List Char))
    (h : ∀ w ∈ ws, w ≠ [] ∧ ∀ x ∈ w, x.isWhitespace = false) :
    rtrim (joinWords ws) = joinWords ws := by
  cases ws with
  | nil => rfl
  | cons w rest =>
    rcases joinWords_last (w :: rest) h (List.cons_ne_nil w rest) with ⟨d, t, hrev, hd⟩
    unfold rtrim
    rw [hrev, List.dropWhile_cons_of_neg (by simp [hd]), ← hrev, List.reverse_reverse]

lemma trim_joinWords (ws : List (List Char))
    (h : ∀ w ∈ ws, w ≠ [] ∧ ∀ x ∈ w, x.isWhitespace = false) :
    trim (joinWords ws) = joinWords ws := by
  unfold trim
  rw [ltrim_joinWords ws h, rtrim_joinWords ws h]

lemma normalizeWs_idem (l : List Char) :
    normalizeWs (normalizeWs l) = normalizeWs l := by
  unfold normalizeWs
  have hprops : ∀ w ∈ words (trim l), w ≠ [] ∧ ∀ x ∈ w, x.isWhitespace = false :=
    fun w hw => words_props (trim l) w hw
  rw [trim_joinWords _ hprops, words_joinWords _ hprops]

/-- C7 amended. The cleanup pass is idempotent on every title whose
cleaned result carries no hash-tag token and no mention token; the
cleaned result never carries a tilde or an urgency token, so under these
hypotheses a second pass strips nothing and whitespace normalization is
idempotent. In general the pass is not idempotent, as the counterexample
shows. -/
theorem C7_idempotence (t : List Char)
    (h1 : noTok '#' (clean_title t) = true)
    (h2 : noTok '@' (clean_title t) = true) :
    clean_title (clean_title t) = clean_title t := by
  have hti : '~' ∉ clean_title t := clean_title_no_tilde t
  have hbang : noTok '!' (clean_title t) = true := clean_title_noTok_bang t
  set c := clean_title t with hc
  rw [clean_title]
  rw [noTok_strip_id _ h1, noTok_strip_id _ h2, estimateStrip_id _ hti,
    noTok_strip_id _ hbang]
  rw [hc]
  rw [clean_title]
  exact normalizeWs_idem _

set_option maxRecDepth 4000 in
/-- C7 witness: a plain title whose cleaned form carries no token at
all, with the hypotheses evaluated and the idempotence drawn from the
theorem. -/
theorem C7_witness :
    noTok '#' (clean_title ("just words here".toList)) = true ∧
    noTok '@' (clean_title ("just words here".toList)) = true ∧
    clean_title (clean_title ("just words here".toList)) =
      clean_title ("just words here".toList) := by
  have hc : clean_title ("just words here".toList) = ("just words here".toList) := by
    simp +decide [clean_title, tokenStrip, estimateStrip, parseEstBody, parseComp,
      isWordChar, normalizeWs, words, joinWords, trim, ltrim, rtrim,
      List.takeWhile, List.dropWhile]
  refine ⟨by rw [hc]; decide, by rw [hc]; decide,
    C7_idempotence _ (by rw [hc]; decide) (by rw [hc]; decide)⟩

end HnpCli
